import Mathlib

/-!
Shallow embedding of `src/hamiltonian_library/models.py`.

The source builds Hamiltonians of six quantum models out of qutip
primitives: `qt.destroy`, `qt.qeye`, `qt.sigmax/y/z`, `qt.jmat` and
`qt.tensor` of a list of local operators.  We embed qutip matrices as
`Matrix ι ι ℂ` where the index type `ι` is the product of the local
index types (row-major flattening of `qt.tensor` is a bijection, so a
product index type is the same data as qutip's flattened matrix).
Python floats are embedded as exact reals; Python scalar parameters
(which are untyped and may be complex) are embedded as `ℂ`.
-/

namespace HamiltonianLibrary

open Matrix Kronecker
open scoped ComplexConjugate

noncomputable section

/-- qutip `destroy(N)`: the bosonic annihilation operator, with entry
`sqrt (m+1)` at row `m`, column `m+1`, and zeros elsewhere. -/
def destroyOp (N : ℕ) : Matrix (Fin N) (Fin N) ℂ :=
  Matrix.of fun i j => if (i : ℕ) + 1 = (j : ℕ) then ((Real.sqrt (j : ℕ) : ℝ) : ℂ) else 0

/-- qutip `sigmax()`. -/
def sigmax : Matrix (Fin 2) (Fin 2) ℂ := !![0, 1; 1, 0]

/-- qutip `sigmay()`. -/
def sigmay : Matrix (Fin 2) (Fin 2) ℂ := !![0, -Complex.I; Complex.I, 0]

/-- qutip `sigmaz()`. -/
def sigmaz : Matrix (Fin 2) (Fin 2) ℂ := !![1, 0; 0, -1]

/-- qutip `tensor(op_list)` for a list of `N` square local operators of a
common local dimension `d`: a matrix on the function index type
`Fin N → Fin d`, with entries the products of the local entries. -/
def tchain {N d : ℕ} (ops : Fin N → Matrix (Fin d) (Fin d) ℂ) :
    Matrix (Fin N → Fin d) (Fin N → Fin d) ℂ :=
  Matrix.of fun i j => ∏ k, ops k (i k) (j k)

/-- The source pattern `op_list = [si] * N; op_list[n] = op; qt.tensor(op_list)`:
the local operator `op` at site `n`, identity on every other site. -/
def embedAt {N d : ℕ} (n : Fin N) (op : Matrix (Fin d) (Fin d) ℂ) :
    Matrix (Fin N → Fin d) (Fin N → Fin d) ℂ :=
  tchain (fun k => if k = n then op else 1)

theorem tchain_apply {N d : ℕ} (ops : Fin N → Matrix (Fin d) (Fin d) ℂ)
    (i j : Fin N → Fin d) : tchain ops i j = ∏ k, ops k (i k) (j k) := rfl

theorem tchain_mul {N d : ℕ} (A B : Fin N → Matrix (Fin d) (Fin d) ℂ) :
    tchain A * tchain B = tchain (fun k => A k * B k) := by
  ext i j
  simp only [tchain, Matrix.mul_apply, Matrix.of_apply]
  rw [Finset.sum_congr rfl fun m _ => (Finset.prod_mul_distrib).symm]
  rw [← Fintype.prod_sum fun k x => A k (i k) x * B k x (j k)]

theorem tchain_conjTranspose {N d : ℕ} (A : Fin N → Matrix (Fin d) (Fin d) ℂ) :
    (tchain A)ᴴ = tchain (fun k => (A k)ᴴ) := by
  ext i j
  simp only [tchain, Matrix.conjTranspose_apply, Matrix.of_apply]
  rw [star_prod]

theorem tchain_one {N d : ℕ} :
    tchain (fun _ : Fin N => (1 : Matrix (Fin d) (Fin d) ℂ)) = 1 := by
  ext i j
  simp only [tchain, Matrix.of_apply, Matrix.one_apply]
  by_cases h : i = j
  · subst h; simp
  · rw [if_neg h]
    obtain ⟨k, hk⟩ : ∃ k, i k ≠ j k := by
      by_contra hc
      push_neg at hc
      exact h (funext hc)
    exact Finset.prod_eq_zero (Finset.mem_univ k) (by simp [Matrix.one_apply, hk])

theorem embedAt_conjTranspose {N d : ℕ} (n : Fin N) (op : Matrix (Fin d) (Fin d) ℂ) :
    (embedAt n op)ᴴ = embedAt n opᴴ := by
  have hfun : (fun k : Fin N => ((if k = n then op else 1 : Matrix (Fin d) (Fin d) ℂ))ᴴ)
      = fun k => if k = n then opᴴ else 1 := by
    funext k
    by_cases h : k = n <;> simp [h]
  rw [embedAt, tchain_conjTranspose, hfun, embedAt]

theorem embedAt_mul {N d : ℕ} (n : Fin N) (A B : Matrix (Fin d) (Fin d) ℂ) :
    embedAt n A * embedAt n B = embedAt n (A * B) := by
  have hfun : (fun k : Fin N =>
        (if k = n then A else 1 : Matrix (Fin d) (Fin d) ℂ) *
        (if k = n then B else 1 : Matrix (Fin d) (Fin d) ℂ))
      = fun k => if k = n then A * B else 1 := by
    funext k
    by_cases h : k = n <;> simp [h]
  rw [embedAt, embedAt, tchain_mul, hfun, embedAt]

/-- Modelled from the spec: `embed_joint` restricted to two target indices —
the tensor product with index `i` replaced by `A`, index `j` replaced by `B`,
and an identity at every other position. -/
def embedJoint2 {N d : ℕ} (i j : Fin N) (A B : Matrix (Fin d) (Fin d) ℂ) :
    Matrix (Fin N → Fin d) (Fin N → Fin d) ℂ :=
  tchain (fun k => if k = i then A else if k = j then B else 1)

theorem embedAt_mul_embedAt_of_ne {N d : ℕ} {i j : Fin N} (hij : i ≠ j)
    (A B : Matrix (Fin d) (Fin d) ℂ) :
    embedAt i A * embedAt j B = embedJoint2 i j A B := by
  have hfun : (fun k : Fin N =>
        (if k = i then A else 1 : Matrix (Fin d) (Fin d) ℂ) *
        (if k = j then B else 1 : Matrix (Fin d) (Fin d) ℂ))
      = fun k => if k = i then A else if k = j then B else 1 := by
    funext k
    by_cases hki : k = i
    · subst hki
      rw [if_pos rfl, if_neg hij, if_pos rfl, mul_one]
    · by_cases hkj : k = j <;> simp [hki, hkj, Ne.symm hij]
  rw [embedAt, embedAt, tchain_mul, hfun, embedJoint2]

theorem embedAt_comm_of_ne {N d : ℕ} {i j : Fin N} (hij : i ≠ j)
    (A B : Matrix (Fin d) (Fin d) ℂ) :
    embedAt i A * embedAt j B = embedAt j B * embedAt i A := by
  rw [embedAt_mul_embedAt_of_ne hij, embedAt_mul_embedAt_of_ne (Ne.symm hij)]
  have hfun : (fun k : Fin N =>
        if k = i then A else if k = j then B else (1 : Matrix (Fin d) (Fin d) ℂ))
      = fun k => if k = j then B else if k = i then A else 1 := by
    funext k
    by_cases hki : k = i
    · subst hki
      simp [hij, Ne.symm hij]
    · by_cases hkj : k = j <;> simp [hki, hkj, Ne.symm hij]
  unfold embedJoint2
  rw [hfun]

theorem tchain_isDiag {N d : ℕ} (ops : Fin N → Matrix (Fin d) (Fin d) ℂ)
    (h : ∀ k, (ops k).IsDiag) : (tchain ops).IsDiag := by
  intro i j hij
  obtain ⟨k, hk⟩ : ∃ k, i k ≠ j k := by
    by_contra hc
    push_neg at hc
    exact hij (funext hc)
  exact Finset.prod_eq_zero (Finset.mem_univ k) (h k hk)

theorem embedAt_isDiag {N d : ℕ} (n : Fin N) {op : Matrix (Fin d) (Fin d) ℂ}
    (h : op.IsDiag) : (embedAt n op).IsDiag := by
  refine tchain_isDiag _ fun k => ?_
  by_cases hk : k = n
  · simpa [hk] using h
  · simp only [if_neg hk]
    exact Matrix.isDiag_one

theorem isDiag_mul_comm {ι : Type} [Fintype ι] [DecidableEq ι]
    {A B : Matrix ι ι ℂ} (hA : A.IsDiag) (hB : B.IsDiag) : A * B = B * A := by
  ext i j
  by_cases hij : i = j
  · subst hij
    rw [Matrix.mul_apply, Matrix.mul_apply]
    refine Finset.sum_congr rfl fun k _ => ?_
    by_cases hk : k = i
    · subst hk; ring
    · rw [hA fun hc => hk hc.symm, hA hk, zero_mul, mul_zero]
  · have h1 : (A * B) i j = 0 := by
      rw [Matrix.mul_apply]
      refine Finset.sum_eq_zero fun k _ => ?_
      by_cases hk : i = k
      · subst hk; rw [hB hij, mul_zero]
      · rw [hA hk, zero_mul]
    have h2 : (B * A) i j = 0 := by
      rw [Matrix.mul_apply]
      refine Finset.sum_eq_zero fun k _ => ?_
      by_cases hk : i = k
      · subst hk; rw [hA hij, mul_zero]
      · rw [hB hk, zero_mul]
    rw [h1, h2]

/-- Index type of the `qt.tensor(·(N), ·(2))` composite space used by the
Jaynes-Cummings and Rabi models. -/
abbrev JCIndex (N : ℕ) := Fin N × Fin 2

/-- `JaynesCummings.build(N, wc, wa, g)`:
`a = tensor(destroy(N), qeye(2))`, `sm = tensor(qeye(N), destroy(2))`,
`H = wc*a.dag()*a + wa*sm.dag()*sm + g*(a.dag()*sm + a*sm.dag())`. -/
def jcH (N : ℕ) (wc wa g : ℂ) : Matrix (JCIndex N) (JCIndex N) ℂ :=
  let a := destroyOp N ⊗ₖ (1 : Matrix (Fin 2) (Fin 2) ℂ)
  let sm := (1 : Matrix (Fin N) (Fin N) ℂ) ⊗ₖ destroyOp 2
  wc • (aᴴ * a) + wa • (smᴴ * sm) + g • (aᴴ * sm + a * smᴴ)

/-- `RabiModel.build(N, wc, wa, g)`:
`H = wc*a.dag()*a + 0.5*wa*sz + g*(a.dag() + a)*sx`. -/
def rabiH (N : ℕ) (wc wa g : ℂ) : Matrix (JCIndex N) (JCIndex N) ℂ :=
  let a := destroyOp N ⊗ₖ (1 : Matrix (Fin 2) (Fin 2) ℂ)
  let sx := (1 : Matrix (Fin N) (Fin N) ℂ) ⊗ₖ sigmax
  let sz := (1 : Matrix (Fin N) (Fin N) ℂ) ⊗ₖ sigmaz
  wc • (aᴴ * a) + (0.5 * wa) • sz + g • ((aᴴ + a) * sx)

/-- Index type of the Tavis-Cummings composite space: one cavity of dimension
`Nc` followed by `M` two-level atoms. -/
abbrev TCIndex (Nc M : ℕ) := Fin Nc × (Fin M → Fin 2)

/-- The source loop accumulating `sz_tot`: for each atom `i`,
`qt.tensor([qeye(N_cavity)] + sz_i)` with `sz_i` the list that is
`sigmaz()` at position `i` and `qeye(2)` elsewhere. -/
def szTot (Nc M : ℕ) : Matrix (TCIndex Nc M) (TCIndex Nc M) ℂ :=
  ∑ i : Fin M, (1 : Matrix (Fin Nc) (Fin Nc) ℂ) ⊗ₖ embedAt i sigmaz

/-- The source loop accumulating `sm_tot` (with `destroy(2)` at position `i`). -/
def smTot (Nc M : ℕ) : Matrix (TCIndex Nc M) (TCIndex Nc M) ℂ :=
  ∑ i : Fin M, (1 : Matrix (Fin Nc) (Fin Nc) ℂ) ⊗ₖ embedAt i (destroyOp 2)

/-- `a_field = qt.tensor([destroy(N_cavity)] + [qeye(2)] * N_atoms)`. -/
def aField (Nc M : ℕ) : Matrix (TCIndex Nc M) (TCIndex Nc M) ℂ :=
  destroyOp Nc ⊗ₖ tchain (fun _ : Fin M => (1 : Matrix (Fin 2) (Fin 2) ℂ))

/-- `TavisCummings.build(N_atoms, N_cavity, wc, wa, g)`:
`H = wc*a_field.dag()*a_field + 0.5*wa*sz_tot
   + g*(a_field.dag()*sm_tot + a_field*sm_tot.dag())`. -/
def tcH (M Nc : ℕ) (wc wa g : ℂ) : Matrix (TCIndex Nc M) (TCIndex Nc M) ℂ :=
  wc • ((aField Nc M)ᴴ * aField Nc M) + (0.5 * wa) • szTot Nc M +
    g • ((aField Nc M)ᴴ * smTot Nc M + aField Nc M * (smTot Nc M)ᴴ)

/-- The spin length `j = (d - 1) / 2` of the angular-momentum representation of
dimension `d` (the source passes `j = N_atoms / 2.0` and `d = int(2*j + 1)`). -/
def jval (d : ℕ) : ℝ := ((d : ℝ) - 1) / 2

/-- qutip raising operator `jmat(j, '+')` on dimension `d = 2j + 1`: in the
basis ordered `m = j, j-1, …, -j` (row `k` holds `m = j - k`), the entry in
row `k`, column `k+1` is `sqrt (j*(j+1) - m*(m+1))` for the column's `m`. -/
def jmatP (d : ℕ) : Matrix (Fin d) (Fin d) ℂ :=
  Matrix.of fun i k =>
    if (i : ℕ) + 1 = (k : ℕ) then
      ((Real.sqrt (jval d * (jval d + 1) -
        (jval d - (k : ℕ)) * (jval d - (k : ℕ) + 1)) : ℝ) : ℂ)
    else 0

/-- qutip `jmat(j, 'z')`: diagonal with entries `j, j-1, …, -j`. -/
def jmatZ (d : ℕ) : Matrix (Fin d) (Fin d) ℂ :=
  Matrix.diagonal fun k => ((jval d - (k : ℕ) : ℝ) : ℂ)

/-- qutip `jmat(j, 'x') = 0.5 * (jp + jp.dag())`. -/
def jmatX (d : ℕ) : Matrix (Fin d) (Fin d) ℂ :=
  (0.5 : ℂ) • (jmatP d + (jmatP d)ᴴ)

/-- Index type of the Dicke composite space: one cavity of dimension `Nc` and
one collective spin of dimension `int(2*(N_atoms/2) + 1) = N_atoms + 1`. -/
abbrev DickeIndex (Nc Na : ℕ) := Fin Nc × Fin (Na + 1)

/-- `DickeModel.build(N_atoms, N_cavity, wc, wa, g)`:
`H = wc*a.dag()*a + wa*jz + (g / N_atoms**0.5)*(a.dag() + a)*jx`. -/
def dickeH (Na Nc : ℕ) (wc wa g : ℂ) : Matrix (DickeIndex Nc Na) (DickeIndex Nc Na) ℂ :=
  let a := destroyOp Nc ⊗ₖ (1 : Matrix (Fin (Na + 1)) (Fin (Na + 1)) ℂ)
  let jz := (1 : Matrix (Fin Nc) (Fin Nc) ℂ) ⊗ₖ jmatZ (Na + 1)
  let jx := (1 : Matrix (Fin Nc) (Fin Nc) ℂ) ⊗ₖ jmatX (Na + 1)
  wc • (aᴴ * a) + wa • jz + (g / ((Real.sqrt Na : ℝ) : ℂ)) • ((aᴴ + a) * jx)

/-- Index type of the `N`-site spin chain. -/
abbrev HeisIndex (N : ℕ) := Fin N → Fin 2

/-- The site `n` of a bond `n ∈ range (N-1)`, as an index into the chain. -/
def loSite {N : ℕ} (n : Fin (N - 1)) : Fin N :=
  ⟨n.1, lt_of_lt_of_le n.2 (Nat.sub_le N 1)⟩

/-- The site `n+1` of a bond `n ∈ range (N-1)`, as an index into the chain. -/
def hiSite {N : ℕ} (n : Fin (N - 1)) : Fin N :=
  ⟨n.1 + 1, by have := n.2; omega⟩

/-- `HeisenbergSpinChain.build(N_spins, Jx, Jy, Jz)`: with
`sx_list[n] = qt.tensor([qeye(2)]*N with sigmax() at n)` (and likewise for
`sy`, `sz`), the sum over bonds
`H += Jx*sx_list[n]*sx_list[n+1] + Jy*sy_list[n]*sy_list[n+1] + Jz*sz_list[n]*sz_list[n+1]`. -/
def heisH (N : ℕ) (Jx Jy Jz : ℂ) : Matrix (HeisIndex N) (HeisIndex N) ℂ :=
  ∑ n : Fin (N - 1),
    (Jx • (embedAt (loSite n) sigmax * embedAt (hiSite n) sigmax) +
     Jy • (embedAt (loSite n) sigmay * embedAt (hiSite n) sigmay) +
     Jz • (embedAt (loSite n) sigmaz * embedAt (hiSite n) sigmaz))

/-- Index type of the Bose-Hubbard lattice: `M` sites of `L` levels each. -/
abbrev BHIndex (M L : ℕ) := Fin M → Fin L

/-- The source list comprehension
`a = [tensor([ops[j] if i == j else qeye(N_levels) for i in range(N_sites)]) for j ...]`:
the annihilation operator of site `j`. -/
def aSite (M L : ℕ) (j : Fin M) : Matrix (BHIndex M L) (BHIndex M L) ℂ :=
  embedAt j (destroyOp L)

/-- `BoseHubbard.build(N_sites, N_levels, t, U)`:
`H_hop = sum(-t*(a[i].dag()*a[i+1] + a[i+1].dag()*a[i]))`,
`H_int = sum(0.5*U*a[i].dag()*a[i].dag()*a[i]*a[i])`, `H = H_hop + H_int`. -/
def bhH (M L : ℕ) (t U : ℂ) : Matrix (BHIndex M L) (BHIndex M L) ℂ :=
  (∑ i : Fin (M - 1),
    (-t) • ((aSite M L (loSite i))ᴴ * aSite M L (hiSite i) +
            (aSite M L (hiSite i))ᴴ * aSite M L (loSite i))) +
  ∑ i : Fin M, (0.5 * U) • ((aSite M L i)ᴴ * (aSite M L i)ᴴ * aSite M L i * aSite M L i)

section HermiticityHelpers

variable {m n : Type}

theorem kron_conjTranspose (A : Matrix m m ℂ) (B : Matrix n n ℂ) :
    (A ⊗ₖ B)ᴴ = Aᴴ ⊗ₖ Bᴴ := by
  ext i j
  simp [Matrix.conjTranspose_apply, mul_comm]

theorem kron_id_mul_id_kron [Fintype m] [Fintype n] [DecidableEq m] [DecidableEq n]
    (A : Matrix m m ℂ) (B : Matrix n n ℂ) :
    (A ⊗ₖ (1 : Matrix n n ℂ)) * ((1 : Matrix m m ℂ) ⊗ₖ B) = A ⊗ₖ B := by
  rw [← Matrix.mul_kronecker_mul, mul_one, one_mul]

theorem id_kron_mul_kron_id [Fintype m] [Fintype n] [DecidableEq m] [DecidableEq n]
    (A : Matrix m m ℂ) (B : Matrix n n ℂ) :
    ((1 : Matrix m m ℂ) ⊗ₖ B) * (A ⊗ₖ (1 : Matrix n n ℂ)) = A ⊗ₖ B := by
  rw [← Matrix.mul_kronecker_mul, mul_one, one_mul]

theorem isHermitian_smul_of_star_self {ι : Type} [Fintype ι] {c : ℂ} (hc : star c = c)
    {M : Matrix ι ι ℂ} (hM : M.IsHermitian) : (c • M).IsHermitian := by
  unfold Matrix.IsHermitian
  rw [Matrix.conjTranspose_smul, hc, hM.eq]

theorem star_ofReal_complex (r : ℝ) : star ((r : ℝ) : ℂ) = ((r : ℝ) : ℂ) :=
  Complex.conj_ofReal r

theorem isHermitian_sum {ι κ : Type} [Fintype ι] (s : Finset κ)
    (f : κ → Matrix ι ι ℂ) (h : ∀ i ∈ s, (f i).IsHermitian) :
    (∑ i ∈ s, f i).IsHermitian := by
  unfold Matrix.IsHermitian
  rw [Matrix.conjTranspose_sum]
  exact Finset.sum_congr rfl fun i hi => (h i hi).eq

theorem kron_isHermitian {A : Matrix m m ℂ} {B : Matrix n n ℂ}
    (hA : A.IsHermitian) (hB : B.IsHermitian) : (A ⊗ₖ B).IsHermitian := by
  unfold Matrix.IsHermitian
  rw [kron_conjTranspose, hA.eq, hB.eq]

/-- The rotating-wave coupling shape `a.dag()*sm + a*sm.dag()` of the
Jaynes-Cummings / Tavis-Cummings models is Hermitian because the two factors
live on disjoint tensor positions. -/
theorem coupling_isHermitian [Fintype m] [Fintype n] [DecidableEq m] [DecidableEq n]
    (A : Matrix m m ℂ) (B : Matrix n n ℂ) :
    ((A ⊗ₖ (1 : Matrix n n ℂ))ᴴ * ((1 : Matrix m m ℂ) ⊗ₖ B) +
     (A ⊗ₖ (1 : Matrix n n ℂ)) * ((1 : Matrix m m ℂ) ⊗ₖ B)ᴴ).IsHermitian := by
  rw [kron_conjTranspose, kron_conjTranspose, Matrix.conjTranspose_one,
    Matrix.conjTranspose_one, kron_id_mul_id_kron, kron_id_mul_id_kron]
  unfold Matrix.IsHermitian
  rw [Matrix.conjTranspose_add, kron_conjTranspose, kron_conjTranspose,
    Matrix.conjTranspose_conjTranspose, Matrix.conjTranspose_conjTranspose, add_comm]

/-- The drive shape `(a.dag() + a) * x` of the Rabi / Dicke models, with `x`
Hermitian on the other tensor position, is Hermitian. -/
theorem drive_isHermitian [Fintype m] [Fintype n] [DecidableEq m] [DecidableEq n]
    (A : Matrix m m ℂ) {B : Matrix n n ℂ} (hB : B.IsHermitian) :
    (((A ⊗ₖ (1 : Matrix n n ℂ))ᴴ + A ⊗ₖ (1 : Matrix n n ℂ)) *
      ((1 : Matrix m m ℂ) ⊗ₖ B)).IsHermitian := by
  rw [kron_conjTranspose, Matrix.conjTranspose_one, add_mul,
    kron_id_mul_id_kron, kron_id_mul_id_kron]
  unfold Matrix.IsHermitian
  rw [Matrix.conjTranspose_add, kron_conjTranspose, kron_conjTranspose,
    Matrix.conjTranspose_conjTranspose, hB.eq, add_comm]

theorem sigmax_isHermitian : sigmax.IsHermitian := by
  ext i j
  fin_cases i <;> fin_cases j <;>
    simp [sigmax, Matrix.conjTranspose_apply]

theorem sigmay_isHermitian : sigmay.IsHermitian := by
  ext i j
  fin_cases i <;> fin_cases j <;>
    simp [sigmay, Matrix.conjTranspose_apply]

theorem sigmaz_isHermitian : sigmaz.IsHermitian := by
  ext i j
  fin_cases i <;> fin_cases j <;>
    simp [sigmaz, Matrix.conjTranspose_apply]

theorem jmatZ_isHermitian (d : ℕ) : (jmatZ d).IsHermitian := by
  unfold Matrix.IsHermitian jmatZ
  rw [Matrix.diagonal_conjTranspose]
  have hstar : (star fun k : Fin d => ((jval d - (k : ℕ) : ℝ) : ℂ))
      = fun k : Fin d => ((jval d - (k : ℕ) : ℝ) : ℂ) := by
    funext k
    rw [Pi.star_apply]
    exact Complex.conj_ofReal _
  rw [hstar]

theorem jmatX_isHermitian (d : ℕ) : (jmatX d).IsHermitian := by
  unfold jmatX
  refine isHermitian_smul_of_star_self (by norm_num) ?_
  unfold Matrix.IsHermitian
  rw [Matrix.conjTranspose_add, Matrix.conjTranspose_conjTranspose, add_comm]

theorem embedAt_isHermitian {N d : ℕ} (i : Fin N) {σ : Matrix (Fin d) (Fin d) ℂ}
    (hσ : σ.IsHermitian) : (embedAt i σ).IsHermitian := by
  unfold Matrix.IsHermitian
  rw [embedAt_conjTranspose, hσ.eq]

/-- A two-site product of Hermitian local operators embedded at distinct
sites is Hermitian. -/
theorem bond_isHermitian {N d : ℕ} {i j : Fin N} (hij : i ≠ j)
    {σ : Matrix (Fin d) (Fin d) ℂ} (hσ : σ.IsHermitian) :
    (embedAt i σ * embedAt j σ).IsHermitian := by
  unfold Matrix.IsHermitian
  rw [Matrix.conjTranspose_mul, embedAt_conjTranspose, embedAt_conjTranspose,
    hσ.eq, embedAt_comm_of_ne (Ne.symm hij)]

theorem loSite_ne_hiSite {N : ℕ} (n : Fin (N - 1)) : loSite n ≠ hiSite n := by
  intro h
  have : n.1 = n.1 + 1 := congrArg Fin.val h
  omega

end HermiticityHelpers

theorem star_half_mul_ofReal (r : ℝ) :
    star ((0.5 : ℂ) * ((r : ℝ) : ℂ)) = (0.5 : ℂ) * ((r : ℝ) : ℂ) := by
  have h05 : (0.5 : ℂ) = ((0.5 : ℝ) : ℂ) := by norm_num
  rw [h05, ← Complex.ofReal_mul]
  exact Complex.conj_ofReal _

theorem star_neg_ofReal (r : ℝ) : star (-((r : ℝ) : ℂ)) = -((r : ℝ) : ℂ) := by
  rw [star_neg]
  exact congrArg Neg.neg (Complex.conj_ofReal r)

theorem jcH_isHermitian (N : ℕ) (wc wa g : ℝ) :
    (jcH N ((wc : ℝ) : ℂ) ((wa : ℝ) : ℂ) ((g : ℝ) : ℂ)).IsHermitian := by
  simp only [jcH]
  refine Matrix.IsHermitian.add (Matrix.IsHermitian.add ?_ ?_) ?_
  · exact isHermitian_smul_of_star_self (star_ofReal_complex wc)
      (Matrix.isHermitian_transpose_mul_self _)
  · exact isHermitian_smul_of_star_self (star_ofReal_complex wa)
      (Matrix.isHermitian_transpose_mul_self _)
  · exact isHermitian_smul_of_star_self (star_ofReal_complex g)
      (coupling_isHermitian (destroyOp N) (destroyOp 2))

theorem rabiH_isHermitian (N : ℕ) (wc wa g : ℝ) :
    (rabiH N ((wc : ℝ) : ℂ) ((wa : ℝ) : ℂ) ((g : ℝ) : ℂ)).IsHermitian := by
  simp only [rabiH]
  refine Matrix.IsHermitian.add (Matrix.IsHermitian.add ?_ ?_) ?_
  · exact isHermitian_smul_of_star_self (star_ofReal_complex wc)
      (Matrix.isHermitian_transpose_mul_self _)
  · exact isHermitian_smul_of_star_self (star_half_mul_ofReal wa)
      (kron_isHermitian Matrix.isHermitian_one sigmaz_isHermitian)
  · exact isHermitian_smul_of_star_self (star_ofReal_complex g)
      (drive_isHermitian (destroyOp N) sigmax_isHermitian)

theorem aField_eq (Nc M : ℕ) :
    aField Nc M = destroyOp Nc ⊗ₖ (1 : Matrix (Fin M → Fin 2) (Fin M → Fin 2) ℂ) := by
  rw [aField, tchain_one]

theorem szTot_isHermitian (Nc M : ℕ) : (szTot Nc M).IsHermitian := by
  refine isHermitian_sum _ _ fun i _ => ?_
  exact kron_isHermitian Matrix.isHermitian_one
    (embedAt_isHermitian i sigmaz_isHermitian)

theorem tc_coupling_eq (Nc M : ℕ) :
    (aField Nc M)ᴴ * smTot Nc M + aField Nc M * (smTot Nc M)ᴴ =
    ∑ i : Fin M,
      ((destroyOp Nc ⊗ₖ (1 : Matrix (Fin M → Fin 2) (Fin M → Fin 2) ℂ))ᴴ *
          ((1 : Matrix (Fin Nc) (Fin Nc) ℂ) ⊗ₖ embedAt i (destroyOp 2)) +
        (destroyOp Nc ⊗ₖ (1 : Matrix (Fin M → Fin 2) (Fin M → Fin 2) ℂ)) *
          ((1 : Matrix (Fin Nc) (Fin Nc) ℂ) ⊗ₖ embedAt i (destroyOp 2))ᴴ) := by
  rw [aField_eq, smTot, Finset.mul_sum, Matrix.conjTranspose_sum, Finset.mul_sum,
    ← Finset.sum_add_distrib]

theorem tcH_isHermitian (M Nc : ℕ) (wc wa g : ℝ) :
    (tcH M Nc ((wc : ℝ) : ℂ) ((wa : ℝ) : ℂ) ((g : ℝ) : ℂ)).IsHermitian := by
  simp only [tcH]
  refine Matrix.IsHermitian.add (Matrix.IsHermitian.add ?_ ?_) ?_
  · exact isHermitian_smul_of_star_self (star_ofReal_complex wc)
      (Matrix.isHermitian_transpose_mul_self _)
  · exact isHermitian_smul_of_star_self (star_half_mul_ofReal wa)
      (szTot_isHermitian Nc M)
  · refine isHermitian_smul_of_star_self (star_ofReal_complex g) ?_
    rw [tc_coupling_eq]
    exact isHermitian_sum _ _ fun i _ => coupling_isHermitian _ _

theorem dickeH_isHermitian (Na Nc : ℕ) (wc wa g : ℝ) :
    (dickeH Na Nc ((wc : ℝ) : ℂ) ((wa : ℝ) : ℂ) ((g : ℝ) : ℂ)).IsHermitian := by
  simp only [dickeH]
  refine Matrix.IsHermitian.add (Matrix.IsHermitian.add ?_ ?_) ?_
  · exact isHermitian_smul_of_star_self (star_ofReal_complex wc)
      (Matrix.isHermitian_transpose_mul_self _)
  · exact isHermitian_smul_of_star_self (star_ofReal_complex wa)
      (kron_isHermitian Matrix.isHermitian_one (jmatZ_isHermitian _))
  · refine isHermitian_smul_of_star_self ?_
      (drive_isHermitian (destroyOp Nc) (jmatX_isHermitian _))
    have hdiv : ((g : ℝ) : ℂ) / ((Real.sqrt Na : ℝ) : ℂ)
        = (((g / Real.sqrt Na : ℝ)) : ℂ) := (Complex.ofReal_div g _).symm
    rw [hdiv]
    exact Complex.conj_ofReal _

theorem heisH_isHermitian (N : ℕ) (Jx Jy Jz : ℝ) :
    (heisH N ((Jx : ℝ) : ℂ) ((Jy : ℝ) : ℂ) ((Jz : ℝ) : ℂ)).IsHermitian := by
  unfold heisH
  refine isHermitian_sum _ _ fun n _ => ?_
  refine Matrix.IsHermitian.add (Matrix.IsHermitian.add ?_ ?_) ?_
  · exact isHermitian_smul_of_star_self (star_ofReal_complex Jx)
      (bond_isHermitian (loSite_ne_hiSite n) sigmax_isHermitian)
  · exact isHermitian_smul_of_star_self (star_ofReal_complex Jy)
      (bond_isHermitian (loSite_ne_hiSite n) sigmay_isHermitian)
  · exact isHermitian_smul_of_star_self (star_ofReal_complex Jz)
      (bond_isHermitian (loSite_ne_hiSite n) sigmaz_isHermitian)

theorem interaction_isHermitian {ι : Type} [Fintype ι] (A : Matrix ι ι ℂ) :
    (Aᴴ * Aᴴ * A * A).IsHermitian := by
  unfold Matrix.IsHermitian
  simp [Matrix.conjTranspose_mul, Matrix.mul_assoc]

theorem bhH_isHermitian (M L : ℕ) (t U : ℝ) :
    (bhH M L ((t : ℝ) : ℂ) ((U : ℝ) : ℂ)).IsHermitian := by
  unfold bhH
  refine Matrix.IsHermitian.add ?_ ?_
  · refine isHermitian_sum _ _ fun i _ => ?_
    refine isHermitian_smul_of_star_self (star_neg_ofReal t) ?_
    have hform : (aSite M L (hiSite i))ᴴ * aSite M L (loSite i) =
        ((aSite M L (loSite i))ᴴ * aSite M L (hiSite i))ᴴ := by
      rw [Matrix.conjTranspose_mul, Matrix.conjTranspose_conjTranspose]
    rw [hform]
    exact Matrix.isHermitian_add_transpose_self _
  · refine isHermitian_sum _ _ fun i _ => ?_
    exact isHermitian_smul_of_star_self (star_half_mul_ofReal U)
      (interaction_isHermitian _)

section Diagonality

/-- `B` vanishes off the band `column = row + c`. -/
def bandShift {L : ℕ} (c : ℕ) (B : Matrix (Fin L) (Fin L) ℂ) : Prop :=
  ∀ k i : Fin L, (i : ℕ) ≠ (k : ℕ) + c → B k i = 0

theorem destroyOp_bandShift (L : ℕ) : bandShift 1 (destroyOp L) := by
  intro k i h
  simp only [destroyOp, Matrix.of_apply]
  rw [if_neg fun hc => h hc.symm]

theorem bandShift_mul {L : ℕ} {c d : ℕ} {B C : Matrix (Fin L) (Fin L) ℂ}
    (hB : bandShift c B) (hC : bandShift d C) : bandShift (c + d) (B * C) := by
  intro k i h
  rw [Matrix.mul_apply]
  refine Finset.sum_eq_zero fun m _ => ?_
  by_cases hm : (m : ℕ) = (k : ℕ) + c
  · rw [hC m i (by omega), mul_zero]
  · rw [hB k m hm, zero_mul]

theorem bandShift_conjTranspose_mul_self_isDiag {L : ℕ} {c : ℕ}
    {B : Matrix (Fin L) (Fin L) ℂ} (hB : bandShift c B) : (Bᴴ * B).IsDiag := by
  intro i j hij
  rw [Matrix.mul_apply]
  refine Finset.sum_eq_zero fun k _ => ?_
  by_cases hk : (i : ℕ) = (k : ℕ) + c
  · have hjk : (j : ℕ) ≠ (k : ℕ) + c := by
      intro hc
      exact hij (Fin.ext (by omega))
    rw [hB k j hjk, mul_zero]
  · rw [Matrix.conjTranspose_apply, hB k i hk, star_zero, zero_mul]

theorem interaction_isDiag (L : ℕ) :
    ((destroyOp L)ᴴ * (destroyOp L)ᴴ * destroyOp L * destroyOp L).IsDiag := by
  have h : (destroyOp L)ᴴ * (destroyOp L)ᴴ * destroyOp L * destroyOp L
      = (destroyOp L * destroyOp L)ᴴ * (destroyOp L * destroyOp L) := by
    rw [Matrix.conjTranspose_mul, Matrix.mul_assoc]
  rw [h]
  exact bandShift_conjTranspose_mul_self_isDiag
    (bandShift_mul (destroyOp_bandShift L) (destroyOp_bandShift L))

/-- The per-site number operator `a[j].dag() * a[j]` of the Bose-Hubbard
lattice. -/
def numSite (M L : ℕ) (j : Fin M) : Matrix (BHIndex M L) (BHIndex M L) ℂ :=
  (aSite M L j)ᴴ * aSite M L j

theorem numSite_isDiag (M L : ℕ) (j : Fin M) : (numSite M L j).IsDiag := by
  unfold numSite aSite
  rw [embedAt_conjTranspose, embedAt_mul]
  exact embedAt_isDiag j
    (bandShift_conjTranspose_mul_self_isDiag (destroyOp_bandShift L))

theorem isDiag_sum {ι κ : Type} (s : Finset κ) (f : κ → Matrix ι ι ℂ)
    (h : ∀ i ∈ s, (f i).IsDiag) : (∑ i ∈ s, f i).IsDiag := by
  intro i j hij
  rw [Matrix.sum_apply]
  exact Finset.sum_eq_zero fun k hk => h k hk hij

theorem aSite_interaction_eq (M L : ℕ) (i : Fin M) :
    (aSite M L i)ᴴ * (aSite M L i)ᴴ * aSite M L i * aSite M L i =
      embedAt i ((destroyOp L)ᴴ * (destroyOp L)ᴴ * destroyOp L * destroyOp L) := by
  unfold aSite
  rw [embedAt_conjTranspose, embedAt_mul, embedAt_mul, embedAt_mul]

theorem bhH_t0_isDiag (M L : ℕ) (U : ℂ) : (bhH M L 0 U).IsDiag := by
  unfold bhH
  simp only [neg_zero, zero_smul, Finset.sum_const_zero, zero_add]
  refine isDiag_sum _ _ fun i _ => ?_
  rw [aSite_interaction_eq]
  exact Matrix.IsDiag.smul _ (embedAt_isDiag i (interaction_isDiag L))

end Diagonality

section SingleSite

theorem heisH_one_eq_zero (Jx Jy Jz : ℂ) : heisH 1 Jx Jy Jz = 0 := by
  unfold heisH
  have : (Finset.univ : Finset (Fin (1 - 1))) = ∅ := by
    haveI : IsEmpty (Fin (1 - 1)) := ⟨fun x => absurd x.2 (by omega)⟩
    exact Finset.univ_eq_empty
  rw [this, Finset.sum_empty]

theorem bhH_one_site (L : ℕ) (t U : ℂ) :
    bhH 1 L t U =
      (0.5 * U) • ((aSite 1 L 0)ᴴ * (aSite 1 L 0)ᴴ * aSite 1 L 0 * aSite 1 L 0) := by
  unfold bhH
  have h0 : (Finset.univ : Finset (Fin (1 - 1))) = ∅ := by
    haveI : IsEmpty (Fin (1 - 1)) := ⟨fun x => absurd x.2 (by omega)⟩
    exact Finset.univ_eq_empty
  rw [h0, Finset.sum_empty, Fin.sum_univ_one, zero_add]

end SingleSite

section Dimensions

/-- The composite Hilbert space over an ordered list of subsystem dimensions:
an index is a choice of basis state in each factor. -/
abbrev HSpace (dims : List ℕ) := (i : Fin dims.length) → Fin (dims.get i)

theorem hspace_card (dims : List ℕ) : Fintype.card (HSpace dims) = dims.prod := by
  rw [Fintype.card_pi]
  conv_rhs => rw [← List.ofFn_get dims]
  rw [List.prod_ofFn]
  simp

theorem jcIndex_card (N : ℕ) : Fintype.card (JCIndex N) = N * 2 := by
  simp [JCIndex]

theorem tcIndex_card (Nc M : ℕ) : Fintype.card (TCIndex Nc M) = Nc * 2 ^ M := by
  simp [TCIndex]

theorem heisIndex_card (N : ℕ) : Fintype.card (HeisIndex N) = 2 ^ N := by
  simp [HeisIndex]

theorem bhIndex_card (M L : ℕ) : Fintype.card (BHIndex M L) = L ^ M := by
  simp [BHIndex]

end Dimensions

/-- Modelled from the spec: one nearest-neighbor coupling term
`Jx*sx_n*sx_(n+1) + Jy*sy_n*sy_(n+1) + Jz*sz_n*sz_(n+1)` of the Heisenberg
chain, written as a joint embedding at the two adjacent indices. -/
def specHeisTerm {N : ℕ} (Jx Jy Jz : ℂ) (i j : Fin N) :
    Matrix (HeisIndex N) (HeisIndex N) ℂ :=
  Jx • embedJoint2 i j sigmax sigmax + Jy • embedJoint2 i j sigmay sigmay +
    Jz • embedJoint2 i j sigmaz sigmaz

/-- `JaynesCummings.build(2, 0, 0, 1j)` returns its assembled operator even
though that operator is not Hermitian: the source performs no validation. -/
theorem jc_complex_g_not_hermitian : ¬ (jcH 2 0 0 Complex.I).IsHermitian := by
  intro h
  have hh := congrFun (congrFun h.eq ((1 : Fin 2), (0 : Fin 2))) ((0 : Fin 2), (1 : Fin 2))
  simp [jcH, Matrix.conjTranspose_apply, Matrix.mul_apply, Fintype.sum_prod_type,
    Fin.sum_univ_two, Matrix.kroneckerMap_apply, Matrix.one_apply, destroyOp,
    Complex.ext_iff] at hh
  exact absurd hh (by norm_num)

section TavisJaynes

/-- The canonical relabeling between the Jaynes-Cummings basis
`Fin N × Fin 2` and the one-atom Tavis-Cummings basis `Fin N × (Fin 1 → Fin 2)`. -/
def tcRelabel (N : ℕ) : JCIndex N ≃ TCIndex N 1 :=
  Equiv.prodCongr (Equiv.refl (Fin N)) (Equiv.funUnique (Fin 1) (Fin 2)).symm

theorem kron_submatrix_relabel (N : ℕ) (A : Matrix (Fin N) (Fin N) ℂ)
    (B : Matrix (Fin 2) (Fin 2) ℂ) :
    (A ⊗ₖ embedAt (0 : Fin 1) B).submatrix (tcRelabel N) (tcRelabel N) = A ⊗ₖ B := by
  ext i j
  simp [tcRelabel, embedAt, tchain, Matrix.submatrix_apply, Equiv.prodCongr,
    Equiv.funUnique, Matrix.kroneckerMap_apply, Fin.prod_univ_one]

theorem embedAt_id {N d : ℕ} (n : Fin N) :
    embedAt n (1 : Matrix (Fin d) (Fin d) ℂ) = 1 := by
  unfold embedAt
  have hfun : (fun k : Fin N => if k = n then (1 : Matrix (Fin d) (Fin d) ℂ) else 1)
      = fun _ => 1 := by
    funext k
    by_cases h : k = n <;> simp [h]
  rw [hfun, tchain_one]

theorem aField_submatrix (N : ℕ) :
    (aField N 1).submatrix (tcRelabel N) (tcRelabel N)
      = destroyOp N ⊗ₖ (1 : Matrix (Fin 2) (Fin 2) ℂ) := by
  rw [aField, tchain_one, ← embedAt_id (0 : Fin 1), kron_submatrix_relabel]

theorem smTot_submatrix (N : ℕ) :
    (smTot N 1).submatrix (tcRelabel N) (tcRelabel N)
      = (1 : Matrix (Fin N) (Fin N) ℂ) ⊗ₖ destroyOp 2 := by
  unfold smTot
  rw [Fin.sum_univ_one]
  exact kron_submatrix_relabel N 1 (destroyOp 2)

/-- With the atomic-energy term switched off (`wa = 0`) the one-atom
Tavis-Cummings Hamiltonian coincides with the Jaynes-Cummings Hamiltonian
under the canonical relabeling. -/
theorem tc_one_atom_wa0_eq_jc (N : ℕ) (wc g : ℂ) :
    (tcH 1 N wc 0 g).submatrix (tcRelabel N) (tcRelabel N) = jcH N wc 0 g := by
  simp only [tcH, jcH, mul_zero, zero_smul, add_zero, zero_add, Matrix.submatrix_add,
    Matrix.submatrix_smul, Pi.add_apply, Pi.smul_apply]
  rw [← Matrix.submatrix_mul_equiv (aField N 1)ᴴ (aField N 1) _ (tcRelabel N) _,
    ← Matrix.submatrix_mul_equiv (aField N 1)ᴴ (smTot N 1) _ (tcRelabel N) _,
    ← Matrix.submatrix_mul_equiv (aField N 1) (smTot N 1)ᴴ _ (tcRelabel N) _,
    ← Matrix.conjTranspose_submatrix, ← Matrix.conjTranspose_submatrix,
    aField_submatrix, smTot_submatrix]

theorem trace_submatrix_equiv {ι κ : Type} [Fintype ι] [Fintype κ]
    (e : ι ≃ κ) (M : Matrix κ κ ℂ) : (M.submatrix e e).trace = M.trace := by
  simp only [Matrix.trace, Matrix.diag_apply, Matrix.submatrix_apply]
  exact Equiv.sum_comp e fun j => M j j

theorem tcH_submatrix_wa_only :
    (tcH 1 2 0 1 0).submatrix (tcRelabel 2) (tcRelabel 2)
      = (0.5 : ℂ) • ((1 : Matrix (Fin 2) (Fin 2) ℂ) ⊗ₖ sigmaz) := by
  simp only [tcH, zero_smul, zero_add, add_zero, mul_one, Matrix.submatrix_smul,
    Pi.smul_apply]
  unfold szTot
  rw [Fin.sum_univ_one]
  rw [kron_submatrix_relabel 2 1 sigmaz]

theorem trace_tcH_one_atom : (tcH 1 2 0 1 0).trace = 0 := by
  rw [← trace_submatrix_equiv (tcRelabel 2), tcH_submatrix_wa_only]
  simp [Matrix.trace, Matrix.diag, Fintype.sum_prod_type, Fin.sum_univ_two,
    Matrix.kroneckerMap_apply, Matrix.one_apply, sigmaz]

theorem trace_jcH_wa_only : (jcH 2 0 1 0).trace = 2 := by
  simp [jcH, Matrix.trace, Matrix.diag, Fintype.sum_prod_type, Fin.sum_univ_two,
    Matrix.mul_apply, Matrix.kroneckerMap_apply, Matrix.one_apply,
    Matrix.conjTranspose_apply, destroyOp]
  norm_num

/-- With matching parameters `N_cavity = 2, wc = 0, wa = 1, g = 0`, no
relabeling of basis states makes the one-atom Tavis-Cummings Hamiltonian equal
to the Jaynes-Cummings Hamiltonian: the two matrices have different traces
(`0` vs `2`), because the source's Tavis-Cummings atomic term `0.5*wa*sz_tot`
is not the Jaynes-Cummings atomic term `wa*sm.dag()*sm`. -/
theorem tc_one_atom_ne_jc_any_relabel :
    ¬ ∃ e : JCIndex 2 ≃ TCIndex 2 1,
      (tcH 1 2 0 1 0).submatrix e e = jcH 2 0 1 0 := by
  rintro ⟨e, he⟩
  have htr : (tcH 1 2 0 1 0).trace = (jcH 2 0 1 0).trace := by
    rw [← trace_submatrix_equiv e, he]
  rw [trace_tcH_one_atom, trace_jcH_wa_only] at htr
  exact absurd htr (by norm_num)

end TavisJaynes

theorem heisH_three_eq_spec_terms :
    heisH 3 1 1 1 = specHeisTerm 1 1 1 0 1 + specHeisTerm 1 1 1 1 2 := by
  have h01 : (0 : Fin 3) ≠ 1 := by decide
  have h12 : (1 : Fin 3) ≠ 2 := by decide
  unfold heisH specHeisTerm
  rw [Fin.sum_univ_two]
  have e0lo : loSite (0 : Fin (3 - 1)) = (0 : Fin 3) := rfl
  have e0hi : hiSite (0 : Fin (3 - 1)) = (1 : Fin 3) := rfl
  have e1lo : loSite (1 : Fin (3 - 1)) = (1 : Fin 3) := rfl
  have e1hi : hiSite (1 : Fin (3 - 1)) = (2 : Fin 3) := rfl
  rw [e0lo, e0hi, e1lo, e1hi, embedAt_mul_embedAt_of_ne h01,
    embedAt_mul_embedAt_of_ne h01, embedAt_mul_embedAt_of_ne h01,
    embedAt_mul_embedAt_of_ne h12, embedAt_mul_embedAt_of_ne h12,
    embedAt_mul_embedAt_of_ne h12]

theorem bhH_t0_commute_numSite (M L : ℕ) (U : ℂ) (j : Fin M) :
    bhH M L 0 U * numSite M L j = numSite M L j * bhH M L 0 U :=
  isDiag_mul_comm (bhH_t0_isDiag M L U) (numSite_isDiag M L j)

section StatefulBuild

/-- The mutable `self.H` slot of a `HamiltonianBase` instance: `None` before
the first `build`, the previously built operator afterwards.  Each `build`
overwrites it and returns the freshly assembled operator. -/
def jc_buildS (N : ℕ) (wc wa g : ℂ)
    (_s : Option (Matrix (JCIndex N) (JCIndex N) ℂ)) :
    Option (Matrix (JCIndex N) (JCIndex N) ℂ) × Matrix (JCIndex N) (JCIndex N) ℂ :=
  (some (jcH N wc wa g), jcH N wc wa g)

/-- Stateful wrapper of `RabiModel.build`, as `jc_buildS`. -/
def rabi_buildS (N : ℕ) (wc wa g : ℂ)
    (_s : Option (Matrix (JCIndex N) (JCIndex N) ℂ)) :
    Option (Matrix (JCIndex N) (JCIndex N) ℂ) × Matrix (JCIndex N) (JCIndex N) ℂ :=
  (some (rabiH N wc wa g), rabiH N wc wa g)

/-- Stateful wrapper of `TavisCummings.build`. -/
def tc_buildS (M Nc : ℕ) (wc wa g : ℂ)
    (_s : Option (Matrix (TCIndex Nc M) (TCIndex Nc M) ℂ)) :
    Option (Matrix (TCIndex Nc M) (TCIndex Nc M) ℂ) × Matrix (TCIndex Nc M) (TCIndex Nc M) ℂ :=
  (some (tcH M Nc wc wa g), tcH M Nc wc wa g)

/-- Stateful wrapper of `DickeModel.build`. -/
def dicke_buildS (Na Nc : ℕ) (wc wa g : ℂ)
    (_s : Option (Matrix (DickeIndex Nc Na) (DickeIndex Nc Na) ℂ)) :
    Option (Matrix (DickeIndex Nc Na) (DickeIndex Nc Na) ℂ) ×
      Matrix (DickeIndex Nc Na) (DickeIndex Nc Na) ℂ :=
  (some (dickeH Na Nc wc wa g), dickeH Na Nc wc wa g)

/-- Stateful wrapper of `HeisenbergSpinChain.build`. -/
def heis_buildS (N : ℕ) (Jx Jy Jz : ℂ)
    (_s : Option (Matrix (HeisIndex N) (HeisIndex N) ℂ)) :
    Option (Matrix (HeisIndex N) (HeisIndex N) ℂ) × Matrix (HeisIndex N) (HeisIndex N) ℂ :=
  (some (heisH N Jx Jy Jz), heisH N Jx Jy Jz)

/-- Stateful wrapper of `BoseHubbard.build`. -/
def bh_buildS (M L : ℕ) (t U : ℂ)
    (_s : Option (Matrix (BHIndex M L) (BHIndex M L) ℂ)) :
    Option (Matrix (BHIndex M L) (BHIndex M L) ℂ) × Matrix (BHIndex M L) (BHIndex M L) ℂ :=
  (some (bhH M L t U), bhH M L t U)

end StatefulBuild

section Serialization

/-- A JSON value, as produced by `json.dumps` of the `to_json` data dict. -/
inductive JsonVal : Type
  | null : JsonVal
  | str : String → JsonVal
  | bool : Bool → JsonVal
  | num : ℝ → JsonVal
  | obj : List (String × JsonVal) → JsonVal

/-- `str(self.H.shape)` for a square matrix of total dimension `D`. -/
def shapeString (D : ℕ) : String :=
  "(" ++ toString D ++ ", " ++ toString D ++ ")"

open Classical in
/-- `self.H.isherm` of qutip, as the exact Hermiticity predicate. -/
def isHermBool {ι : Type} [Fintype ι] (H : Matrix ι ι ℂ) : Bool :=
  if H.IsHermitian then true else false

/-- `HamiltonianBase.to_json`: the data dict
`{"model_name": name, "parameters": params,
  "matrix_shape": str(self.H.shape) if self.H else None,
  "is_hermitian": self.H.isherm if self.H else None}`. -/
def to_json {ι : Type} [Fintype ι] (name : String) (params : List (String × ℝ))
    (H : Option (Matrix ι ι ℂ)) : List (String × JsonVal) :=
  [("model_name", JsonVal.str name),
   ("parameters", JsonVal.obj (params.map fun p => (p.1, JsonVal.num p.2))),
   ("matrix_shape",
     match H with
     | none => JsonVal.null
     | some _ => JsonVal.str (shapeString (Fintype.card ι))),
   ("is_hermitian",
     match H with
     | none => JsonVal.null
     | some h => JsonVal.bool (isHermBool h))]

end Serialization

section Claims

/-- Claim C1: for every cataloged model (Jaynes-Cummings, Rabi,
Tavis-Cummings, Dicke, Heisenberg spin chain, Bose-Hubbard) and all valid
parameters (real coupling parameters, arbitrary dimensions/site counts), the
operator returned by `build` is Hermitian — exactly equal to its own adjoint
in the exact-real embedding, hence within any tolerance such as 1e-10. -/
theorem claim_C1_all_models_hermitian :
    (∀ (N : ℕ) (wc wa g : ℝ), (jcH N wc wa g).IsHermitian) ∧
    (∀ (N : ℕ) (wc wa g : ℝ), (rabiH N wc wa g).IsHermitian) ∧
    (∀ (M Nc : ℕ) (wc wa g : ℝ), (tcH M Nc wc wa g).IsHermitian) ∧
    (∀ (Na Nc : ℕ) (wc wa g : ℝ), (dickeH Na Nc wc wa g).IsHermitian) ∧
    (∀ (N : ℕ) (Jx Jy Jz : ℝ), (heisH N Jx Jy Jz).IsHermitian) ∧
    (∀ (M L : ℕ) (t U : ℝ), (bhH M L t U).IsHermitian) :=
  ⟨jcH_isHermitian, rabiH_isHermitian, tcH_isHermitian, dickeH_isHermitian,
    heisH_isHermitian, bhH_isHermitian⟩

/-- Claim C2, evaluated on the code at the failing inputs: a Heisenberg chain
with one site builds the zero operator (the bond loop is empty) and a
Bose-Hubbard lattice with one site builds only its on-site interaction term;
no `InsufficientSubsystems` error exists anywhere in the source, so neither
call fails. -/
theorem claim_C2_single_site_returns_operator :
    (∀ Jx Jy Jz : ℂ, heisH 1 Jx Jy Jz = 0) ∧
    (∀ (L : ℕ) (t U : ℂ), bhH 1 L t U =
      (0.5 * U) • ((aSite 1 L 0)ᴴ * (aSite 1 L 0)ᴴ * aSite 1 L 0 * aSite 1 L 0)) :=
  ⟨heisH_one_eq_zero, fun L t U => bhH_one_site L t U⟩

/-- Claim C3, evaluated on the code at the failing input: `build` performs no
validation, and `JaynesCummings.build(2, 0, 0, 1j)` hands the caller an
operator that is not Hermitian — no `NonHermitianHamiltonian` error is ever
raised by the source. -/
theorem claim_C3_returns_non_hermitian : ¬ (jcH 2 0 0 Complex.I).IsHermitian :=
  jc_complex_g_not_hermitian

/-- Claim C4, counterexample: with matching parameters
`N_cavity = 2, wc = 0, wa = 1, g = 0`, the one-atom Tavis-Cummings
Hamiltonian does not equal the Jaynes-Cummings Hamiltonian under any
relabeling of basis states (their traces are `0` and `2`). -/
theorem claim_C4_counterexample :
    ¬ ∃ e : JCIndex 2 ≃ TCIndex 2 1,
      (tcH 1 2 0 1 0).submatrix e e = jcH 2 0 1 0 :=
  tc_one_atom_ne_jc_any_relabel

/-- Claim C4, amended: for matching `N_cavity, wc, g` and `wa = 0` — the
atomic-energy term is where the two models differ (`0.5*wa*sz_tot` versus
`wa*sm.dag()*sm`) — the Tavis-Cummings Hamiltonian with one atom equals the
Jaynes-Cummings Hamiltonian under the canonical relabeling of basis states. -/
theorem claim_C4_amended_equal_when_wa_zero (N : ℕ) (wc g : ℂ) :
    (tcH 1 N wc 0 g).submatrix (tcRelabel N) (tcRelabel N) = jcH N wc 0 g :=
  tc_one_atom_wa0_eq_jc N wc g

/-- Claim C5: `HeisenbergSpinChain.build(3, 1.0, 1.0, 1.0)` returns an `8×8`
Hermitian operator equal to the sum of exactly two nearest-neighbor coupling
terms (bonds `(0,1)` and `(1,2)` of the spec formula
`Jx*sx_n*sx_(n+1) + Jy*sy_n*sy_(n+1) + Jz*sz_n*sz_(n+1)`). -/
theorem claim_C5_heisenberg_three_sites :
    Fintype.card (HeisIndex 3) = 8 ∧
    (heisH 3 1 1 1).IsHermitian ∧
    heisH 3 1 1 1 = specHeisTerm 1 1 1 0 1 + specHeisTerm 1 1 1 1 2 := by
  refine ⟨by rw [heisIndex_card]; norm_num, ?_, heisH_three_eq_spec_terms⟩
  simpa using heisH_isHermitian 3 1 1 1

/-- Claim C6: the Bose-Hubbard space with `N_sites = 3, N_levels = 2` has
total dimension `8`, and for `t = 0` (any `U`, any lattice) the built
operator commutes with every per-site number operator `a[j].dag()*a[j]`
(it is diagonal in the site-occupation basis, hence block-diagonal). -/
theorem claim_C6_bose_hubbard_t0_block_diagonal :
    Fintype.card (BHIndex 3 2) = 8 ∧
    (∀ (M L : ℕ) (U : ℂ) (j : Fin M),
      bhH M L 0 U * numSite M L j = numSite M L j * bhH M L 0 U) :=
  ⟨by rw [bhIndex_card]; norm_num, fun M L U j => bhH_t0_commute_numSite M L U j⟩

/-- Claim C7: the total dimension of a composite Hilbert space is the product
of its subsystem dimensions; in particular the Jaynes-Cummings/Rabi index
space with `N = 5` (both models share `JCIndex`) has total dimension
`5 * 2 = 10`. -/
theorem claim_C7_total_dimension :
    (∀ dims : List ℕ, Fintype.card (HSpace dims) = dims.prod) ∧
    (∀ N : ℕ, Fintype.card (JCIndex N) = N * 2) ∧
    Fintype.card (JCIndex 5) = 10 :=
  ⟨hspace_card, jcIndex_card, by rw [jcIndex_card]⟩

/-- Claim C8: embedding `A` at index `i` and multiplying by the embedding of
`B` at a distinct index `j` equals the joint embedding placing `A` at `i` and
`B` at `j` with identities elsewhere (the Heisenberg chain's two-site
coupling pattern). -/
theorem claim_C8_single_embeddings_compose_to_joint {N d : ℕ} (i j : Fin N)
    (hij : i ≠ j) (A B : Matrix (Fin d) (Fin d) ℂ) :
    embedAt i A * embedAt j B = embedJoint2 i j A B :=
  embedAt_mul_embedAt_of_ne hij A B

/-- Witness for claim C8 at the concrete input `N = 2, i = 0, j = 1`,
`A = sigmax, B = sigmaz`. -/
theorem claim_C8_witness :
    embedAt (0 : Fin 2) sigmax * embedAt (1 : Fin 2) sigmaz
      = embedJoint2 (0 : Fin 2) (1 : Fin 2) sigmax sigmaz :=
  claim_C8_single_embeddings_compose_to_joint 0 1 (by decide) sigmax sigmaz

/-- Claim C9: every model's `build` is deterministic and does not depend on
the instance's mutable `self.H` slot: the operator returned is the same for
any prior state, and rebuilding with identical parameters (from the state the
first call left behind) returns an identical operator. -/
theorem claim_C9_build_deterministic :
    (∀ (N : ℕ) (wc wa g : ℂ) (s1 s2 : Option (Matrix (JCIndex N) (JCIndex N) ℂ)),
      (jc_buildS N wc wa g s1).2 = (jc_buildS N wc wa g s2).2 ∧
      (jc_buildS N wc wa g (jc_buildS N wc wa g s1).1).2 = (jc_buildS N wc wa g s1).2) ∧
    (∀ (N : ℕ) (wc wa g : ℂ) (s1 s2 : Option (Matrix (JCIndex N) (JCIndex N) ℂ)),
      (rabi_buildS N wc wa g s1).2 = (rabi_buildS N wc wa g s2).2 ∧
      (rabi_buildS N wc wa g (rabi_buildS N wc wa g s1).1).2 = (rabi_buildS N wc wa g s1).2) ∧
    (∀ (M Nc : ℕ) (wc wa g : ℂ) (s1 s2 : Option (Matrix (TCIndex Nc M) (TCIndex Nc M) ℂ)),
      (tc_buildS M Nc wc wa g s1).2 = (tc_buildS M Nc wc wa g s2).2 ∧
      (tc_buildS M Nc wc wa g (tc_buildS M Nc wc wa g s1).1).2 = (tc_buildS M Nc wc wa g s1).2) ∧
    (∀ (Na Nc : ℕ) (wc wa g : ℂ) (s1 s2 : Option (Matrix (DickeIndex Nc Na) (DickeIndex Nc Na) ℂ)),
      (dicke_buildS Na Nc wc wa g s1).2 = (dicke_buildS Na Nc wc wa g s2).2 ∧
      (dicke_buildS Na Nc wc wa g (dicke_buildS Na Nc wc wa g s1).1).2 = (dicke_buildS Na Nc wc wa g s1).2) ∧
    (∀ (N : ℕ) (Jx Jy Jz : ℂ) (s1 s2 : Option (Matrix (HeisIndex N) (HeisIndex N) ℂ)),
      (heis_buildS N Jx Jy Jz s1).2 = (heis_buildS N Jx Jy Jz s2).2 ∧
      (heis_buildS N Jx Jy Jz (heis_buildS N Jx Jy Jz s1).1).2 = (heis_buildS N Jx Jy Jz s1).2) ∧
    (∀ (M L : ℕ) (t U : ℂ) (s1 s2 : Option (Matrix (BHIndex M L) (BHIndex M L) ℂ)),
      (bh_buildS M L t U s1).2 = (bh_buildS M L t U s2).2 ∧
      (bh_buildS M L t U (bh_buildS M L t U s1).1).2 = (bh_buildS M L t U s1).2) :=
  ⟨fun _ _ _ _ _ _ => ⟨rfl, rfl⟩, fun _ _ _ _ _ _ => ⟨rfl, rfl⟩,
   fun _ _ _ _ _ _ _ => ⟨rfl, rfl⟩, fun _ _ _ _ _ _ _ => ⟨rfl, rfl⟩,
   fun _ _ _ _ _ _ => ⟨rfl, rfl⟩, fun _ _ _ _ _ _ => ⟨rfl, rfl⟩⟩

/-- Claim C10: calling `to_json` before `build` (stored Hamiltonian `None`)
does not fail and yields a record with `model_name` and `parameters`
populated and with `matrix_shape` and `is_hermitian` null. -/
theorem claim_C10_to_json_before_build {ι : Type} [Fintype ι]
    (name : String) (params : List (String × ℝ)) :
    to_json name params (none : Option (Matrix ι ι ℂ)) =
      [("model_name", JsonVal.str name),
       ("parameters", JsonVal.obj (params.map fun p => (p.1, JsonVal.num p.2))),
       ("matrix_shape", JsonVal.null),
       ("is_hermitian", JsonVal.null)] := rfl

end Claims

end

end HamiltonianLibrary
